import Mathlib

/-!
Verification of the shuttling compiler of this repository
(`src/compiler/compiler_v01.py` and `src/compiler/compiler01.py`)
against its natural-language specification.

Conventions of the shallow embedding:
* Python coordinate tuples `(r, c)` of ints become `Pos := Int × Int`.
* The extracted gate tuples `(name, angle, wire)` become `Gate`; the compiler
  never inspects the angle numerically, so it is carried as an opaque `Int`
  payload; the `wire` field (an int or a pair of ints in Python) is the tagged
  variant `Wire`.
* Python code that can raise (`ValueError`, `IndexError`) is embedded in
  `Except String`.
* `nx.shortest_path` over the trap graph is an external input of the routing
  code (the trap-graph module is imported by the compiler, and its shortest
  path queries are memoized pure functions of the fixed graph); it is modelled
  as an explicit path oracle `sp : Pos → Pos → List Pos`.
-/

/-- A site coordinate on the trap lattice. -/
abbrev Pos := Int × Int

/-- The `wire` entry of an extracted gate tuple: in the Python source it is
either a plain int (single-qubit gate) or a tuple of two ints (two-qubit
gate); `isinstance(gate[2], tuple)` discriminates the two. -/
inductive Wire where
  | single (q : Nat)
  | pair (a b : Nat)
deriving DecidableEq, Repr

/-- One `(gate_name, parameter, wire)` tuple as produced by
`qft.extract_gate_sequence`. -/
structure Gate where
  kind : String
  param : Int
  wire : Wire
deriving DecidableEq, Repr

/-- `isinstance(gate[2], tuple)` from the source. -/
def isTwoQubitGate (g : Gate) : Bool :=
  match g.wire with
  | Wire.pair _ _ => true
  | Wire.single _ => false

/-- The single-qubit wire of a gate, when it has one. -/
def singleWireOf (g : Gate) : Option Nat :=
  match g.wire with
  | Wire.single q => some q
  | Wire.pair _ _ => none

/-- State of the batching loop of `batch_circuit`:
`(batched_circuit, batched_circuit_t, used_qubits)`.  The Python
`used_qubits` set is carried as a list; only membership is ever queried. -/
abbrev BatchState := List (List Gate) × List Gate × List Nat

/-- One iteration of the `for gate in gate_seq` loop of `batch_circuit`
(`compiler_v01.py` lines 45-66, identically `compiler01.py` lines 35-43). -/
def batchStep (st : BatchState) (g : Gate) : BatchState :=
  match st, g.wire with
  | (batched, tmp, used), Wire.single q =>
      if q ∈ used then (batched ++ [tmp], [g], [q])
      else (batched, tmp ++ [g], used ++ [q])
  | (batched, tmp, used), Wire.pair _ _ =>
      if tmp = [] then (batched ++ [[g]], [], used)
      else (batched ++ [tmp, [g]], [], [])

/-- The set `{g[2] for g in batch}` of a single-qubit batch. -/
def singleWires (b : List Gate) : List Nat := b.filterMap singleWireOf

/-- `all(not isinstance(g[2], tuple) for g in last)` from `batch_circuit`. -/
def allSingle (b : List Gate) : Bool := b.all fun g => !isTwoQubitGate g

/-- `last_wires.isdisjoint(new_wires)` from `batch_circuit`. -/
def disjointWires (xs ys : List Nat) : Bool := xs.all fun q => !ys.contains q

/-- The trailing-batch handling of `batch_circuit`
(`compiler_v01.py` lines 70-84): if a batch is still open, merge it into the
previous batch when that one is single-qubit-only with disjoint wires,
otherwise push it as its own step. -/
def batchFinish (batched : List (List Gate)) (tmp : List Gate) : List (List Gate) :=
  if tmp = [] then batched
  else
    match batched.getLast? with
    | some last =>
        if allSingle last && disjointWires (singleWires last) (singleWires tmp) then
          batched.dropLast ++ [last ++ tmp]
        else batched ++ [tmp]
    | none => batched ++ [tmp]

/-- `batch_circuit` of `compiler_v01.py` (lines 30-84), over the gate sequence
it receives from the extractor. -/
def batch_circuit (seq : List Gate) : List (List Gate) :=
  let st := seq.foldl batchStep ([], [], [])
  batchFinish st.1 st.2.1

/-- `adjusted` of `compiler_v01.py` (lines 107-115), identically `_adjust` of
`compiler01.py` (lines 49-54).  Qubit indices are non-negative in Python
(wires of the 8-qubit circuit), so `Nat` is faithful; the out-of-range branch
raises `ValueError`. -/
def adjusted (pos : Pos) (idx : Nat) : Except String Pos :=
  if idx < 3 then Except.ok (pos.1 + 1, pos.2)
  else if idx < 5 then Except.ok (pos.1, pos.2 - 1)
  else if idx < 8 then Except.ok (pos.1 - 1, pos.2)
  else Except.error "Qubit index out of supported range"

/-- Python list indexing `l[i]`, raising `IndexError` when out of range. -/
def listGet (l : List α) (i : Nat) : Except String α :=
  match l[i]? with
  | some x => Except.ok x
  | none => Except.error "IndexError"

/-- `select_int_point` of `compiler_v01.py` (lines 117-137): compute the
candidate rendezvous `(qu1_pos[0], qu2_pos[1])` and look it up in
`interaction_positions`; `list.index` raises `ValueError` when the candidate
is not declared, which the function re-raises. -/
def select_int_point (current ips : List Pos) (qu1 qu2 : Nat) :
    Except String (Nat × Pos) := do
  let c1 ← listGet current qu1
  let c2 ← listGet current qu2
  let a1 ← adjusted c1 qu1
  let a2 ← adjusted c2 qu2
  let intPos : Pos := (a1.1, a2.2)
  match ips.indexOf? intPos with
  | some i => Except.ok (i, intPos)
  | none => Except.error "Failed to find interaction point"

/-- `get_qubits_paths` of `compiler_v01.py` (lines 140-159): both shortest
paths from the adjusted positions to the selected interaction point, each
prefixed with the qubit's current (pre-adjustment) position. -/
def get_qubits_paths (sp : Pos → Pos → List Pos) (current ips : List Pos)
    (qu1 qu2 : Nat) : Except String (List Pos × List Pos) := do
  let (intIdx, _) ← select_int_point current ips qu1 qu2
  let c1 ← listGet current qu1
  let c2 ← listGet current qu2
  let a1 ← adjusted c1 qu1
  let a2 ← adjusted c2 qu2
  let tgt ← listGet ips intIdx
  Except.ok (c1 :: sp a1 tgt, c2 :: sp a2 tgt)

/-- Padding `path + [path[-1]] * (max_len - len(path))` from
`get_two_qubit_path`; all call sites pass a non-empty path, so the
`getLastD` default is never consulted. -/
def padPath (p : List Pos) (n : Nat) : List Pos :=
  p ++ List.replicate (n - p.length) (p.getLastD (0, 0))

/-- `get_two_qubit_path` of `compiler_v01.py` (lines 161-196): per-step full
position snapshots while both qubits walk to the interaction point, followed
by the full mirror of that forward list (`forward + list(reversed(forward))`).
`step[qu1] = padded1[i]; step[qu2] = padded2[i]` on a copy of the running
state becomes `List.set`. -/
def get_two_qubit_path (sp : Pos → Pos → List Pos) (current ips : List Pos)
    (qu1 qu2 : Nat) : Except String (List (List Pos)) := do
  let (path1, path2) ← get_qubits_paths sp current ips qu1 qu2
  let maxLen := max path1.length path2.length
  let padded1 := padPath path1 maxLen
  let padded2 := padPath path2 maxLen
  let forward := (List.range maxLen).map fun i =>
    (current.set qu1 (padded1.getD i (0, 0))).set qu2 (padded2.getD i (0, 0))
  Except.ok (forward ++ forward.reverse)

/-- `get_two_qubit_gate_schedule` of `compiler_v01.py` (lines 199-216),
identically `_two_qubit_gate_schedule` of `compiler01.py` (lines 88-96):
insert `circuit_column` at the first `i < n-1` with `path[i] == path[i+1]`,
every other slot `[]`.  The Python loop keeps an `inserted` flag; after the
insertion every remaining slot is `[]`, which the recursion mirrors. -/
def get_two_qubit_gate_schedule (path : List (List Pos)) (col : List Gate) :
    List (List Gate) :=
  match path with
  | [] => []
  | [_] => [[]]
  | x :: y :: rest =>
      if x = y then col :: List.replicate (rest.length + 1) []
      else [] :: get_two_qubit_gate_schedule (y :: rest) col

/-- The module constant `INTERACTION_POINTS` of `compiler01.py` (line 24),
equal to `interaction_points` of `compiler_v01.main`. -/
def INTERACTION_POINTS : List Pos := [(1, 1), (1, 3), (3, 1), (3, 3), (1, 5), (3, 5)]

/-- The default `init_positions` of `compiler01.compile`, equal to
`initial_ion_pos` of `compiler_v01.main`. -/
def initial_ion_pos : List Pos :=
  [(0, 1), (0, 3), (0, 5), (1, 6), (3, 6), (4, 1), (4, 3), (4, 5)]

/-- Modelled from the spec: the Topology Graph Builder (§4.1, the repository's
trap module with `create_trap_graph`) is not among the compiler sources.  The
graph is the full `rows × cols` lattice (idle siblings are pendant leaves of
standard sites), so `nx.shortest_path_length` between two lattice coordinates
is the Manhattan distance. -/
def shortest_path_length (a b : Pos) : Nat :=
  (a.1 - b.1).natAbs + (a.2 - b.2).natAbs

/-- Python's `min(iterable, key=...)`: keeps the current best and replaces it
only on a strictly smaller key, so the first minimizer in iteration order
wins. -/
def minByKey (key : Pos → Nat) : Pos → List Pos → Pos
  | best, [] => best
  | best, y :: ys => minByKey key (if key y < key best then y else best) ys

/-- `_select_int` of `compiler01.py` (lines 56-65): if the geometric candidate
`(a[0], b[1])` is a declared interaction point return it, otherwise fall back
to the interaction point minimizing the summed shortest-path length measured
from the qubits' CURRENT positions `current[qu1]`, `current[qu2]`
(not the adjusted ones). -/
def select_int (current : List Pos) (qu1 qu2 : Nat) : Except String Pos := do
  let c1 ← listGet current qu1
  let c2 ← listGet current qu2
  let a ← adjusted c1 qu1
  let b ← adjusted c2 qu2
  let cand : Pos := (a.1, b.2)
  if cand ∈ INTERACTION_POINTS then Except.ok cand
  else
    match INTERACTION_POINTS with
    | [] => Except.error "min() arg is an empty sequence"
    | p :: rest =>
        Except.ok (minByKey
          (fun n => shortest_path_length c1 n + shortest_path_length c2 n) p rest)

/-- The fallback selector as claim C4 and §4.3 of the specification word it:
summed shortest-path distance measured from the operands' ADJUSTED
coordinates.  Stated only to compare with `select_int`, which is the
source's definition. -/
def select_int_claim (current : List Pos) (qu1 qu2 : Nat) : Except String Pos := do
  let c1 ← listGet current qu1
  let c2 ← listGet current qu2
  let a ← adjusted c1 qu1
  let b ← adjusted c2 qu2
  let cand : Pos := (a.1, b.2)
  if cand ∈ INTERACTION_POINTS then Except.ok cand
  else
    match INTERACTION_POINTS with
    | [] => Except.error "min() arg is an empty sequence"
    | p :: rest =>
        Except.ok (minByKey
          (fun n => shortest_path_length a n + shortest_path_length b n) p rest)

/-- `_get_two_qubit_path` of `compiler01.py` (lines 67-86).  Unlike the
`compiler_v01` variant, the two paths start at the ADJUSTED positions (no
`[cur[qu]]` prefix).  `p1[-1]` raises `IndexError` on an empty path, hence
the `getLast?` guard. -/
def c01_two_qubit_path (sp : Pos → Pos → List Pos) (current : List Pos)
    (qu1 qu2 : Nat) : Except String (List (List Pos)) := do
  let tgt ← select_int current qu1 qu2
  let c1 ← listGet current qu1
  let c2 ← listGet current qu2
  let a1 ← adjusted c1 qu1
  let a2 ← adjusted c2 qu2
  let p1 := sp a1 tgt
  let p2 := sp a2 tgt
  match p1.getLast?, p2.getLast? with
  | some l1, some l2 =>
      let maxLen := max p1.length p2.length
      let padded1 := p1 ++ List.replicate (maxLen - p1.length) l1
      let padded2 := p2 ++ List.replicate (maxLen - p2.length) l2
      let forward := (List.range maxLen).map fun i =>
        (current.set qu1 (padded1.getD i (0, 0))).set qu2 (padded2.getD i (0, 0))
      Except.ok (forward ++ forward.reverse)
  | _, _ => Except.error "IndexError"

/-- The `for col in batch_circuit(...)` loop of `compiler01.compile`
(lines 115-128): a single-qubit column appends the unchanged state and the
column; a two-qubit column appends the whole path expansion and its matching
schedule and continues from `path[-1]`. -/
def compileLoop (sp : Pos → Pos → List Pos) :
    List Pos → List (List Gate) → Except String (List (List Pos) × List (List Gate))
  | _, [] => Except.ok ([], [])
  | _, [] :: _ => Except.error "IndexError"
  | current, (⟨kind, param, Wire.single q⟩ :: colRest) :: cols => do
      let (ph, gs) ← compileLoop sp current cols
      Except.ok (current :: ph, (⟨kind, param, Wire.single q⟩ :: colRest) :: gs)
  | current, (⟨kind, param, Wire.pair q1 q2⟩ :: colRest) :: cols => do
      let path ← c01_two_qubit_path sp current q1 q2
      let sched := get_two_qubit_gate_schedule path
        (⟨kind, param, Wire.pair q1 q2⟩ :: colRest)
      let (ph, gs) ← compileLoop sp (path.getLastD []) cols
      Except.ok (path ++ ph, sched ++ gs)

/-- `compile` of `compiler01.py` (lines 101-130), taking the extracted gate
sequence as input (the extractor is an external collaborator per §1 of the
spec) and returning `(positions_history, gates_schedule)`. -/
def compile (sp : Pos → Pos → List Pos) (init : List Pos) (seq : List Gate) :
    Except String (List (List Pos) × List (List Gate)) :=
  compileLoop sp init (batch_circuit seq)

/-- A position entry of the post-processed history: either the plain
coordinate or the coordinate with the `"idle"` tag attached
(`(r, c, "idle")` in the source). -/
inductive Node where
  | site (p : Pos)
  | idleSite (p : Pos)
deriving DecidableEq, Repr

/-- Whether a gate targets `ion` according to the idle post-pass of
`compiler_v01.main` (lines 294-298):
`(g[0] in ("RX","RY") and g[2] == ion_idx) or (g[0] == "MS" and ion_idx in g[2])`.
A Python `==` between an int and a tuple is `False`; `ion_idx in g[2]` is
only reached for `"MS"` gates, whose wire is always a pair in every schedule
the compiler builds. -/
def gateTargets (ion : Nat) (g : Gate) : Bool :=
  ((g.kind == "RX" || g.kind == "RY") &&
    (match g.wire with | Wire.single q => q == ion | Wire.pair _ _ => false)) ||
  (g.kind == "MS" &&
    (match g.wire with | Wire.pair a b => ion == a || ion == b | Wire.single _ => false))

/-- `has_gate` of the idle post-pass: any gate of the batch targets the ion. -/
def has_gate (gs : List Gate) (ion : Nat) : Bool := gs.any (gateTargets ion)

/-- Whether a gate references an operand at all, regardless of its kind
(single-operand wire match, or membership in a two-operand pair).  This is
the claim-side notion of "targeted by any gate" used to state C5 and C10. -/
def references (ion : Nat) (g : Gate) : Bool :=
  match g.wire with
  | Wire.single q => q == ion
  | Wire.pair a b => ion == a || ion == b

/-- Shape of every gate the compiler ever schedules when `use_Z` is false
(the setting hardwired in `compiler_v01.main`): single-qubit gates are
`"RX"`/`"RY"`, two-qubit gates are `"MS"`. -/
def gateWellFormed (g : Gate) : Bool :=
  match g.wire with
  | Wire.single _ => g.kind == "RX" || g.kind == "RY"
  | Wire.pair _ _ => g.kind == "MS"

/-- The `for t in range(1, num_steps)` body of the idle post-pass of
`compiler_v01.main` (lines 290-313) for one ion, walking the remaining
positions of that ion's column; `prev` is the position at the previous
timestep (the code's `prev_pos` always equals it on entry to step `t`),
`run` is `run_length`, and `gs` holds the gate batches aligned with the
positions being walked. -/
def annotate_go (th ion : Nat) : Pos → Nat → List Pos → List (List Gate) → List Node
  | _, _, [], _ => []
  | prev, run, curr :: ps, gs =>
      if curr ≠ prev ∨ has_gate (gs.headD []) ion = true then
        Node.site curr :: annotate_go th ion curr 0 ps gs.tail
      else if th ≤ run + 1 then
        Node.idleSite curr :: annotate_go th ion curr (run + 1) ps gs.tail
      else
        Node.site curr :: annotate_go th ion curr (run + 1) ps gs.tail

/-- One ion's column of the idle post-pass: entry `t = 0` is never touched by
the loop (it starts at `t = 1` with `run_length = 0` and
`prev_pos = positions_history[0][ion_idx]`). -/
def annotate_col (th ion : Nat) (pcol : List Pos) (gs : List (List Gate)) : List Node :=
  match pcol with
  | [] => []
  | p0 :: ps => Node.site p0 :: annotate_go th ion p0 0 ps gs.tail

/-- The whole idle post-pass of `compiler_v01.main` (lines 277-316): a deep
copy of `positions_history` patched per ion.  The per-ion loops are
independent, so the patched matrix is the transpose of the per-ion columns;
`num_ions = len(positions_history[0])`. -/
def idle_annotate (th : Nat) (P : List (List Pos)) (G : List (List Gate)) :
    List (List Node) :=
  (List.range P.length).map fun t =>
    (List.range (P.headD []).length).map fun ion =>
      (annotate_col th ion (P.map fun row => row.getD ion (0, 0)) G).getD t
        (Node.site (0, 0))

/-- Entry of the annotated matrix at timestep `t` for operand `ion`. -/
def entryAt (M : List (List Node)) (t ion : Nat) : Node :=
  (M.getD t []).getD ion (Node.site (0, 0))

/-- The column of one operand's positions across the timeline. -/
def colAt (P : List (List Pos)) (ion : Nat) : List Pos :=
  P.map fun row => row.getD ion (0, 0)

/-! ### Basic helper lemmas -/

lemma listGet_ok {l : List α} {i : Nat} {x : α} (h : listGet l i = Except.ok x) :
    l[i]? = some x := by
  unfold listGet at h
  cases hx : l[i]? with
  | none => rw [hx] at h; exact absurd h (by simp)
  | some y => rw [hx] at h; cases h; rfl

lemma set_self_of_get? {l : List α} {i : Nat} {x : α} (h : l[i]? = some x) :
    l.set i x = l := by
  induction l generalizing i with
  | nil => simp at h
  | cons hd tl ih =>
      cases i with
      | zero => simp at h; simp [h]
      | succ n => simp at h ⊢; exact ih h

lemma sched_length (path : List (List Pos)) (col : List Gate) :
    (get_two_qubit_gate_schedule path col).length = path.length := by
  induction path with
  | nil => rfl
  | cons x rest ih =>
      cases rest with
      | nil => rfl
      | cons y rest' =>
          by_cases hxy : x = y
          · simp [get_two_qubit_gate_schedule, hxy]
          · simp only [get_two_qubit_gate_schedule, if_neg hxy]
            simpa using ih

/-- C9 (amended): when no adjacent repeat exists the schedule builder raises
nothing; it returns the all-empty schedule, so the gate appears nowhere. -/
theorem no_repeat_schedule_all_empty (path : List (List Pos)) (col : List Gate)
    (h : ∀ i, i + 1 < path.length → path[i]? ≠ path[i + 1]?) :
    get_two_qubit_gate_schedule path col = List.replicate path.length [] := by
  induction path with
  | nil => rfl
  | cons x rest ih =>
      cases rest with
      | nil => rfl
      | cons y rest' =>
          have hxy : x ≠ y := by
            intro hcontra
            exact h 0 (by simp) (by simp [hcontra])
          simp only [get_two_qubit_gate_schedule, if_neg hxy]
          have := ih (fun i hi => by
            have := h (i + 1) (by simpa using hi)
            simpa using this)
          rw [this]
          simp [List.replicate_succ]

/-- C9 counterexample: on a repeat-free path the source's schedule builder
returns normally with an all-empty expansion — the gate is silently dropped,
no `InternalConsistencyError` (or any error) is raised. -/
theorem no_repeat_schedule_cex :
    get_two_qubit_gate_schedule [[(0, 0)], [(0, 1)], [(0, 2)]]
        [⟨"MS", 1, Wire.pair 0 1⟩] = [[], [], []] ∧
    [(⟨"MS", 1, Wire.pair 0 1⟩ : Gate)] ∉
      get_two_qubit_gate_schedule [[(0, 0)], [(0, 1)], [(0, 2)]]
        [⟨"MS", 1, Wire.pair 0 1⟩] := by
  constructor
  · rfl
  · decide

/-- Witness for the amended C9 theorem at a concrete repeat-free path. -/
theorem no_repeat_schedule_all_empty_witness :
    get_two_qubit_gate_schedule [[(0, 0)], [(0, 1)], [(0, 2)]]
        [⟨"MS", 1, Wire.pair 0 1⟩] = List.replicate 3 [] :=
  no_repeat_schedule_all_empty [[(0, 0)], [(0, 1)], [(0, 2)]]
    [⟨"MS", 1, Wire.pair 0 1⟩] (by
    intro i hi
    simp only [List.length_cons, List.length_nil] at hi
    have h2 : i < 2 := by omega
    interval_cases i <;> decide)

lemma exceptOkBind {α β ε : Type _} (a : α) (f : α → Except ε β) :
    (Except.ok a : Except ε α) >>= f = f a := rfl

lemma exceptErrorBind {α β ε : Type _} (e : ε) (f : α → Except ε β) :
    (Except.error e : Except ε α) >>= f = Except.error e := rfl

lemma get_qubits_paths_ok {sp : Pos → Pos → List Pos} {cur ips : List Pos}
    {q1 q2 : Nat} {p1 p2 : List Pos}
    (h : get_qubits_paths sp cur ips q1 q2 = Except.ok (p1, p2)) :
    ∃ (c1 c2 a1 a2 tgt : Pos),
      cur[q1]? = some c1 ∧ cur[q2]? = some c2 ∧
      adjusted c1 q1 = Except.ok a1 ∧ adjusted c2 q2 = Except.ok a2 ∧
      p1 = c1 :: sp a1 tgt ∧ p2 = c2 :: sp a2 tgt := by
  unfold get_qubits_paths at h
  cases hsel : select_int_point cur ips q1 q2 with
  | error e => rw [hsel, exceptErrorBind] at h; exact absurd h (by simp)
  | ok pr =>
      obtain ⟨intIdx, ipos⟩ := pr
      rw [hsel] at h
      simp only [exceptOkBind] at h
      cases h1 : listGet cur q1 with
      | error e => rw [h1, exceptErrorBind] at h; exact absurd h (by simp)
      | ok c1 =>
          rw [h1] at h
          simp only [exceptOkBind] at h
          cases h2 : listGet cur q2 with
          | error e => rw [h2, exceptErrorBind] at h; exact absurd h (by simp)
          | ok c2 =>
              rw [h2] at h
              simp only [exceptOkBind] at h
              cases h3 : adjusted c1 q1 with
              | error e => rw [h3, exceptErrorBind] at h; exact absurd h (by simp)
              | ok a1 =>
                  rw [h3] at h
                  simp only [exceptOkBind] at h
                  cases h4 : adjusted c2 q2 with
                  | error e => rw [h4, exceptErrorBind] at h; exact absurd h (by simp)
                  | ok a2 =>
                      rw [h4] at h
                      simp only [exceptOkBind] at h
                      cases h5 : listGet ips intIdx with
                      | error e =>
                          rw [h5, exceptErrorBind] at h; exact absurd h (by simp)
                      | ok tgt =>
                          rw [h5] at h
                          simp only [exceptOkBind] at h
                          obtain ⟨hp1, hp2⟩ := Prod.mk.injEq .. ▸ Except.ok.inj h
                          exact ⟨c1, c2, a1, a2, tgt, listGet_ok h1, listGet_ok h2,
                            h3, h4, hp1.symm, hp2.symm⟩

lemma get_two_qubit_path_ok {sp : Pos → Pos → List Pos} {cur ips : List Pos}
    {q1 q2 : Nat} {path : List (List Pos)}
    (hp : get_two_qubit_path sp cur ips q1 q2 = Except.ok path) :
    ∃ (c1 c2 : Pos) (p1 p2 : List Pos) (forward : List (List Pos)),
      get_qubits_paths sp cur ips q1 q2 = Except.ok (p1, p2) ∧
      cur[q1]? = some c1 ∧ cur[q2]? = some c2 ∧
      p1.head? = some c1 ∧ p2.head? = some c2 ∧
      path = forward ++ forward.reverse ∧
      forward.length = max p1.length p2.length ∧
      0 < forward.length ∧
      forward.head? = some cur := by
  unfold get_two_qubit_path at hp
  cases hq : get_qubits_paths sp cur ips q1 q2 with
  | error e => rw [hq, exceptErrorBind] at hp; exact absurd hp (by simp)
  | ok pr =>
      obtain ⟨p1, p2⟩ := pr
      rw [hq] at hp
      simp only [exceptOkBind] at hp
      obtain ⟨c1, c2, a1, a2, tgt, hc1, hc2, ha1, ha2, hp1, hp2⟩ :=
        get_qubits_paths_ok hq
      set L := max p1.length p2.length with hL
      set forward := (List.range L).map fun i =>
        (cur.set q1 ((padPath p1 L).getD i (0, 0))).set q2
          ((padPath p2 L).getD i (0, 0)) with hfwd
      have hpath : path = forward ++ forward.reverse := by
        cases hp; rfl
      have hLpos : 0 < L := by
        have : 0 < p1.length := by rw [hp1]; simp
        omega
      have hflen : forward.length = L := by simp [hfwd]
      refine ⟨c1, c2, p1, p2, forward, rfl, hc1, hc2, ?_, ?_, hpath, by rw [hflen],
        by rw [hflen]; exact hLpos, ?_⟩
      · rw [hp1]; rfl
      · rw [hp2]; rfl
      · obtain ⟨m, hm⟩ : ∃ m, L = m + 1 := ⟨L - 1, by omega⟩
        have hr : List.range L = 0 :: (List.range m).map Nat.succ := by
          rw [hm, List.range_succ_eq_map]
        have hpad1 : (padPath p1 L).getD 0 (0, 0) = c1 := by
          rw [hp1]; simp [padPath]
        have hpad2 : (padPath p2 L).getD 0 (0, 0) = c2 := by
          rw [hp2]; simp [padPath]
        rw [hfwd, hr]
        simp only [List.map_cons, List.head?_cons]
        rw [hpad1, hpad2, set_self_of_get? hc1, set_self_of_get? hc2]

/-- A concrete stand-in for the shortest-path oracle, used to instantiate
universally quantified theorems on explicit inputs. -/
def spOracle : Pos → Pos → List Pos := fun a b => if a = b then [a] else [a, b]

/-- C1: round-trip symmetry of a two-operand expansion.  For every expansion
the path synchronizer returns: both per-operand paths start at the operand's
pre-adjustment site, the expansion is the forward snapshot list followed by
its full mirror (hence a palindrome) of total length `2L`, it starts at the
pre-expansion snapshot, and its final snapshot — the running state for
subsequent batches — equals that snapshot again, for every operand. -/
theorem round_trip_symmetry (sp : Pos → Pos → List Pos) (cur ips : List Pos)
    (q1 q2 : Nat) (path : List (List Pos))
    (hp : get_two_qubit_path sp cur ips q1 q2 = Except.ok path) :
    ∃ (p1 p2 : List Pos) (forward : List (List Pos)),
      get_qubits_paths sp cur ips q1 q2 = Except.ok (p1, p2) ∧
      p1.head? = cur[q1]? ∧ p2.head? = cur[q2]? ∧
      path = forward ++ forward.reverse ∧
      path.length = 2 * max p1.length p2.length ∧
      path.reverse = path ∧
      path.head? = some cur ∧ path.getLast? = some cur := by
  obtain ⟨c1, c2, p1, p2, forward, hq, hc1, hc2, hh1, hh2, hpath, hflen, hfpos, hfhd⟩ :=
    get_two_qubit_path_ok hp
  have hrev : path.reverse = path := by
    rw [hpath, List.reverse_append, List.reverse_reverse]
  have hhd : path.head? = some cur := by
    cases hfw : forward with
    | nil => rw [hfw] at hfpos; simp at hfpos
    | cons z t =>
        rw [hfw] at hfhd
        simp only [List.head?_cons] at hfhd
        cases hfhd
        rw [hpath, hfw]
        rfl
  refine ⟨p1, p2, forward, hq, by rw [hh1, hc1], by rw [hh2, hc2], hpath, ?_, hrev,
    hhd, ?_⟩
  · rw [hpath]
    simp only [List.length_append, List.length_reverse, hflen]
    omega
  · rw [← List.head?_reverse, hrev, hhd]

/-- Witness for C1 at a concrete input. -/
theorem round_trip_symmetry_witness :
    ∃ (p1 p2 : List Pos) (forward : List (List Pos)),
      get_qubits_paths spOracle [(0, 1), (0, 3)] INTERACTION_POINTS 0 1 =
        Except.ok (p1, p2) ∧
      p1.head? = ([(0, 1), (0, 3)] : List Pos)[0]? ∧
      p2.head? = ([(0, 1), (0, 3)] : List Pos)[1]? ∧
      [[(0, 1), (0, 3)], [(1, 1), (1, 3)], [(1, 3), (1, 3)], [(1, 3), (1, 3)],
          [(1, 1), (1, 3)], [(0, 1), (0, 3)]] = forward ++ forward.reverse ∧
      ([[(0, 1), (0, 3)], [(1, 1), (1, 3)], [(1, 3), (1, 3)], [(1, 3), (1, 3)],
          [(1, 1), (1, 3)], [(0, 1), (0, 3)]] : List (List Pos)).length =
        2 * max p1.length p2.length ∧
      ([[(0, 1), (0, 3)], [(1, 1), (1, 3)], [(1, 3), (1, 3)], [(1, 3), (1, 3)],
          [(1, 1), (1, 3)], [(0, 1), (0, 3)]] : List (List Pos)).reverse =
        [[(0, 1), (0, 3)], [(1, 1), (1, 3)], [(1, 3), (1, 3)], [(1, 3), (1, 3)],
          [(1, 1), (1, 3)], [(0, 1), (0, 3)]] ∧
      ([[(0, 1), (0, 3)], [(1, 1), (1, 3)], [(1, 3), (1, 3)], [(1, 3), (1, 3)],
          [(1, 1), (1, 3)], [(0, 1), (0, 3)]] : List (List Pos)).head? =
        some [(0, 1), (0, 3)] ∧
      ([[(0, 1), (0, 3)], [(1, 1), (1, 3)], [(1, 3), (1, 3)], [(1, 3), (1, 3)],
          [(1, 1), (1, 3)], [(0, 1), (0, 3)]] : List (List Pos)).getLast? =
        some [(0, 1), (0, 3)] :=
  round_trip_symmetry spOracle [(0, 1), (0, 3)] INTERACTION_POINTS 0 1
    [[(0, 1), (0, 3)], [(1, 1), (1, 3)], [(1, 3), (1, 3)], [(1, 3), (1, 3)],
      [(1, 1), (1, 3)], [(0, 1), (0, 3)]] (by rfl)

lemma sched_first_repeat (path : List (List Pos)) (col : List Gate)
    (hrep : ∃ i, i + 1 < path.length ∧ path[i]? = path[i + 1]?) :
    ∃ i, i + 1 < path.length ∧ path[i]? = path[i + 1]? ∧
      (∀ j, j < i → path[j]? ≠ path[j + 1]?) ∧
      get_two_qubit_gate_schedule path col =
        List.replicate i [] ++ col :: List.replicate (path.length - i - 1) [] := by
  induction path with
  | nil => obtain ⟨i, hi, _⟩ := hrep; simp at hi
  | cons x rest ih =>
      cases rest with
      | nil => obtain ⟨i, hi, _⟩ := hrep; simp at hi
      | cons y rest' =>
          by_cases hxy : x = y
          · refine ⟨0, by simp, by simp [hxy], by simp, ?_⟩
            simp only [get_two_qubit_gate_schedule, if_pos hxy]
            simp [List.length_cons]
          · obtain ⟨i, hi, heq⟩ := hrep
            have hex : ∃ i', i' + 1 < (y :: rest').length ∧
                (y :: rest')[i']? = (y :: rest')[i' + 1]? := by
              cases i with
              | zero =>
                  exfalso
                  apply hxy
                  simp only [List.getElem?_cons_zero, List.getElem?_cons_succ,
                    zero_add] at heq
                  exact Option.some.inj heq
              | succ i' =>
                  refine ⟨i', ?_, ?_⟩
                  · simp only [List.length_cons] at hi ⊢; omega
                  · simpa using heq
            obtain ⟨i', hlt, heq', hpre, hsched⟩ := ih hex
            refine ⟨i' + 1, ?_, by simpa using heq', ?_, ?_⟩
            · simp only [List.length_cons] at hlt ⊢; omega
            · intro j hj
              cases j with
              | zero =>
                  simp only [List.getElem?_cons_zero, List.getElem?_cons_succ,
                    zero_add]
                  intro hcontra
                  exact hxy (Option.some.inj hcontra)
              | succ j' =>
                  have := hpre j' (by omega)
                  simpa using this
            · simp only [get_two_qubit_gate_schedule, if_neg hxy]
              rw [hsched]
              have hlen : (y :: rest').length - i' - 1 =
                  (x :: y :: rest').length - (i' + 1) - 1 := by
                simp only [List.length_cons]; omega
              rw [List.replicate_succ, List.cons_append, hlen]

lemma path_has_repeat {sp : Pos → Pos → List Pos} {cur ips : List Pos}
    {q1 q2 : Nat} {path : List (List Pos)}
    (hp : get_two_qubit_path sp cur ips q1 q2 = Except.ok path) :
    ∃ i, i + 1 < path.length ∧ path[i]? = path[i + 1]? := by
  obtain ⟨c1, c2, p1, p2, forward, _, _, _, _, _, hpath, _, hfpos, _⟩ :=
    get_two_qubit_path_ok hp
  refine ⟨forward.length - 1, ?_, ?_⟩
  · rw [hpath]; simp only [List.length_append, List.length_reverse]; omega
  · have h1 : path[forward.length - 1]? = forward[forward.length - 1]? := by
      rw [hpath]; exact List.getElem?_append_left (by omega)
    have h2 : path[forward.length - 1 + 1]? = forward.reverse[0]? := by
      rw [hpath, List.getElem?_append_right (by omega)]
      congr 1
      omega
    rw [h1, h2, ← List.getLast?_eq_getElem?, ← List.head?_eq_getElem?,
      List.head?_reverse]

lemma filter_replicate_empty (n : Nat) :
    (List.replicate n ([] : List Gate)).filter (fun b => !b.isEmpty) = [] := by
  induction n with
  | zero => rfl
  | succ m ih => rw [List.replicate_succ, List.filter_cons]; simp [ih]

/-- C2: for every two-operand expansion, the batch list built for it has the
same length as the expansion, contains exactly one non-empty batch — the
original operation's column itself — and that batch sits at the first index
`i` with `path[i] = path[i+1]`; every other index holds an empty batch. -/
theorem gate_inserted_at_first_repeat (sp : Pos → Pos → List Pos)
    (cur ips : List Pos) (q1 q2 : Nat) (path : List (List Pos)) (col : List Gate)
    (hp : get_two_qubit_path sp cur ips q1 q2 = Except.ok path)
    (hcol : col ≠ []) :
    (get_two_qubit_gate_schedule path col).length = path.length ∧
    (get_two_qubit_gate_schedule path col).filter (fun b => !b.isEmpty) = [col] ∧
    ∃ i, i + 1 < path.length ∧ path[i]? = path[i + 1]? ∧
      (∀ j, j < i → path[j]? ≠ path[j + 1]?) ∧
      (get_two_qubit_gate_schedule path col)[i]? = some col ∧
      ∀ j, j < path.length → j ≠ i →
        (get_two_qubit_gate_schedule path col)[j]? = some [] := by
  obtain ⟨i, hi, heq, hpre, hsched⟩ := sched_first_repeat path col (path_has_repeat hp)
  have hcolE : col.isEmpty = false := by
    cases col with
    | nil => exact absurd rfl hcol
    | cons a l => rfl
  refine ⟨sched_length path col, ?_, i, hi, heq, hpre, ?_, ?_⟩
  · rw [hsched]
    rw [List.filter_append, filter_replicate_empty, List.filter_cons,
      filter_replicate_empty]
    simp [hcolE]
  · rw [hsched, List.getElem?_append_right (by simp), List.length_replicate]
    simp
  · intro j hj hne
    rw [hsched]
    rcases Nat.lt_or_ge j i with hlt | hge
    · rw [List.getElem?_append_left (by simpa using hlt)]
      rw [List.getElem?_replicate, if_pos hlt]
    · have hgt : i < j := lt_of_le_of_ne hge (Ne.symm hne)
      rw [List.getElem?_append_right (by simpa using hge), List.length_replicate]
      obtain ⟨d, hd⟩ : ∃ d, j - i = d + 1 := ⟨j - i - 1, by omega⟩
      rw [hd]
      simp only [List.getElem?_cons_succ]
      rw [List.getElem?_replicate, if_pos (by omega)]

/-- Witness for C2 at a concrete input. -/
theorem gate_inserted_at_first_repeat_witness :
    (get_two_qubit_gate_schedule
        [[(0, 1), (0, 3)], [(1, 1), (1, 3)], [(1, 3), (1, 3)], [(1, 3), (1, 3)],
          [(1, 1), (1, 3)], [(0, 1), (0, 3)]] [⟨"MS", 1, Wire.pair 0 1⟩]).length =
      ([[(0, 1), (0, 3)], [(1, 1), (1, 3)], [(1, 3), (1, 3)], [(1, 3), (1, 3)],
          [(1, 1), (1, 3)], [(0, 1), (0, 3)]] : List (List Pos)).length ∧
    (get_two_qubit_gate_schedule
        [[(0, 1), (0, 3)], [(1, 1), (1, 3)], [(1, 3), (1, 3)], [(1, 3), (1, 3)],
          [(1, 1), (1, 3)], [(0, 1), (0, 3)]] [⟨"MS", 1, Wire.pair 0 1⟩]).filter
        (fun b => !b.isEmpty) = [[⟨"MS", 1, Wire.pair 0 1⟩]] ∧
    ∃ i, i + 1 < ([[(0, 1), (0, 3)], [(1, 1), (1, 3)], [(1, 3), (1, 3)],
          [(1, 3), (1, 3)], [(1, 1), (1, 3)], [(0, 1), (0, 3)]] :
            List (List Pos)).length ∧
      ([[(0, 1), (0, 3)], [(1, 1), (1, 3)], [(1, 3), (1, 3)], [(1, 3), (1, 3)],
          [(1, 1), (1, 3)], [(0, 1), (0, 3)]] : List (List Pos))[i]? =
        ([[(0, 1), (0, 3)], [(1, 1), (1, 3)], [(1, 3), (1, 3)], [(1, 3), (1, 3)],
          [(1, 1), (1, 3)], [(0, 1), (0, 3)]] : List (List Pos))[i + 1]? ∧
      (∀ j, j < i →
        ([[(0, 1), (0, 3)], [(1, 1), (1, 3)], [(1, 3), (1, 3)], [(1, 3), (1, 3)],
            [(1, 1), (1, 3)], [(0, 1), (0, 3)]] : List (List Pos))[j]? ≠
          ([[(0, 1), (0, 3)], [(1, 1), (1, 3)], [(1, 3), (1, 3)], [(1, 3), (1, 3)],
            [(1, 1), (1, 3)], [(0, 1), (0, 3)]] : List (List Pos))[j + 1]?) ∧
      (get_two_qubit_gate_schedule
          [[(0, 1), (0, 3)], [(1, 1), (1, 3)], [(1, 3), (1, 3)], [(1, 3), (1, 3)],
            [(1, 1), (1, 3)], [(0, 1), (0, 3)]] [⟨"MS", 1, Wire.pair 0 1⟩])[i]? =
        some [⟨"MS", 1, Wire.pair 0 1⟩] ∧
      ∀ j, j < ([[(0, 1), (0, 3)], [(1, 1), (1, 3)], [(1, 3), (1, 3)],
          [(1, 3), (1, 3)], [(1, 1), (1, 3)], [(0, 1), (0, 3)]] :
            List (List Pos)).length → j ≠ i →
        (get_two_qubit_gate_schedule
            [[(0, 1), (0, 3)], [(1, 1), (1, 3)], [(1, 3), (1, 3)], [(1, 3), (1, 3)],
              [(1, 1), (1, 3)], [(0, 1), (0, 3)]] [⟨"MS", 1, Wire.pair 0 1⟩])[j]? =
          some [] :=
  gate_inserted_at_first_repeat spOracle [(0, 1), (0, 3)] INTERACTION_POINTS 0 1
    [[(0, 1), (0, 3)], [(1, 1), (1, 3)], [(1, 3), (1, 3)], [(1, 3), (1, 3)],
      [(1, 1), (1, 3)], [(0, 1), (0, 3)]] [⟨"MS", 1, Wire.pair 0 1⟩] (by rfl)
    (by simp)

lemma compileLoop_lengths (sp : Pos → Pos → List Pos) (cols : List (List Gate)) :
    ∀ (cur : List Pos) (ph : List (List Pos)) (gs : List (List Gate)),
      compileLoop sp cur cols = Except.ok (ph, gs) → ph.length = gs.length := by
  induction cols with
  | nil =>
      intro cur ph gs h
      unfold compileLoop at h
      cases h
      rfl
  | cons col cols ih =>
      intro cur ph gs h
      match col with
      | [] =>
          unfold compileLoop at h
          exact absurd h (by simp)
      | (⟨kind, param, Wire.single q⟩ :: colRest) =>
          unfold compileLoop at h
          cases hrec : compileLoop sp cur cols with
          | error e => rw [hrec, exceptErrorBind] at h; exact absurd h (by simp)
          | ok pr =>
              obtain ⟨ph', gs'⟩ := pr
              rw [hrec] at h
              simp only [exceptOkBind] at h
              cases h
              simp only [List.length_cons]
              rw [ih cur ph' gs' hrec]
      | (⟨kind, param, Wire.pair q1 q2⟩ :: colRest) =>
          unfold compileLoop at h
          cases hpath : c01_two_qubit_path sp cur q1 q2 with
          | error e => rw [hpath, exceptErrorBind] at h; exact absurd h (by simp)
          | ok path =>
              rw [hpath] at h
              simp only [exceptOkBind] at h
              cases hrec : compileLoop sp (path.getLastD []) cols with
              | error e => rw [hrec, exceptErrorBind] at h; exact absurd h (by simp)
              | ok pr =>
                  obtain ⟨ph', gs'⟩ := pr
                  rw [hrec] at h
                  simp only [exceptOkBind] at h
                  cases h
                  simp only [List.length_append]
                  rw [sched_length, ih (path.getLastD []) ph' gs' hrec]

/-- C3: the two sequences of the returned timeline always have equal length:
whenever `compile` succeeds, `len(positions_history) == len(gates_schedule)`
(each single-operand batch contributes one snapshot and one batch entry; each
two-operand batch contributes matching `2L`-long blocks). -/
theorem compile_timeline_lengths (sp : Pos → Pos → List Pos) (init : List Pos)
    (seq : List Gate) (ph : List (List Pos)) (gs : List (List Gate))
    (h : compile sp init seq = Except.ok (ph, gs)) : ph.length = gs.length :=
  compileLoop_lengths sp (batch_circuit seq) init ph gs h

/-- Witness for C3 at a concrete input: one single-qubit gate followed by one
two-qubit gate. -/
theorem compile_timeline_lengths_witness :
    ∃ (ph : List (List Pos)) (gs : List (List Gate)),
      compile spOracle initial_ion_pos
        [⟨"RX", 1, Wire.single 0⟩, ⟨"MS", 2, Wire.pair 0 1⟩] = Except.ok (ph, gs) ∧
      ph.length = gs.length := by
  cases hc : compile spOracle initial_ion_pos
      [⟨"RX", 1, Wire.single 0⟩, ⟨"MS", 2, Wire.pair 0 1⟩] with
  | error e =>
      exfalso
      have hok : (compile spOracle initial_ion_pos
        [⟨"RX", 1, Wire.single 0⟩, ⟨"MS", 2, Wire.pair 0 1⟩]).isOk = true := by decide
      rw [hc] at hok
      exact absurd hok (by simp [Except.isOk, Except.toBool])
  | ok pr =>
      exact ⟨pr.1, pr.2, by rw [← hc],
        compile_timeline_lengths spOracle initial_ion_pos
          [⟨"RX", 1, Wire.single 0⟩, ⟨"MS", 2, Wire.pair 0 1⟩] pr.1 pr.2
          (by rw [← hc])⟩

lemma adjusted_err_of_big (p : Pos) (idx : Nat) (h8 : 8 ≤ idx) :
    adjusted p idx = Except.error "Qubit index out of supported range" := by
  unfold adjusted
  rw [if_neg (by omega), if_neg (by omega), if_neg (by omega)]

lemma select_int_err_of_big (init : List Pos) (idx j : Nat) (h8 : 8 ≤ idx) :
    ∃ e, select_int init idx j = Except.error e := by
  unfold select_int
  cases h1 : listGet init idx with
  | error e => exact ⟨e, by rw [exceptErrorBind]⟩
  | ok c1 =>
      simp only [h1, exceptOkBind]
      cases h2 : listGet init j with
      | error e => exact ⟨e, by rw [exceptErrorBind]⟩
      | ok c2 =>
          simp only [h2, exceptOkBind, adjusted_err_of_big c1 idx h8,
            exceptErrorBind]
          exact ⟨"Qubit index out of supported range", rfl⟩

lemma compile_pair_err (sp : Pos → Pos → List Pos) (init : List Pos)
    (idx j : Nat) (kind : String) (param : Int) (h8 : 8 ≤ idx) :
    ∃ e, compile sp init [⟨kind, param, Wire.pair idx j⟩] = Except.error e := by
  have hb : batch_circuit [⟨kind, param, Wire.pair idx j⟩] =
      [[⟨kind, param, Wire.pair idx j⟩]] := rfl
  unfold compile
  rw [hb]
  unfold compileLoop c01_two_qubit_path
  obtain ⟨e, he⟩ := select_int_err_of_big init idx j h8
  rw [he, exceptErrorBind, exceptErrorBind]
  exact ⟨e, rfl⟩

/-- C8: the adjustment rule maps indices `0..2` to a `+1` shift on the first
axis, `3..4` to a `−1` shift on the orthogonal axis, `5..7` to a `−1` shift
on the first axis, and any other operand index makes it fail (the `ValueError`
of the source, the spec's `ConfigurationError`) — not a success and not a
silent default — and a compile call processing a two-operand gate on such an
index fails as a whole. -/
theorem adjustment_rule_domain (x y : Int) (idx : Nat) :
    (idx < 3 → adjusted (x, y) idx = Except.ok (x + 1, y)) ∧
    (3 ≤ idx → idx < 5 → adjusted (x, y) idx = Except.ok (x, y - 1)) ∧
    (5 ≤ idx → idx < 8 → adjusted (x, y) idx = Except.ok (x - 1, y)) ∧
    (8 ≤ idx →
      adjusted (x, y) idx = Except.error "Qubit index out of supported range" ∧
      ∀ (sp : Pos → Pos → List Pos) (init : List Pos) (kind : String)
        (param : Int) (j : Nat),
        ∃ e, compile sp init [⟨kind, param, Wire.pair idx j⟩] = Except.error e) := by
  refine ⟨?_, ?_, ?_, ?_⟩
  · intro h; unfold adjusted; rw [if_pos h]
  · intro h3 h5; unfold adjusted; rw [if_neg (by omega), if_pos h5]
  · intro h5 h8; unfold adjusted
    rw [if_neg (by omega), if_neg (by omega), if_pos h8]
  · intro h8
    exact ⟨adjusted_err_of_big (x, y) idx h8,
      fun sp init kind param j => compile_pair_err sp init idx j kind param h8⟩

/-- Witness for C8 at the out-of-range index 9. -/
theorem adjustment_rule_domain_witness :
    adjusted (0, 0) 9 = Except.error "Qubit index out of supported range" ∧
    ∃ e, compile spOracle initial_ion_pos [⟨"MS", 1, Wire.pair 9 0⟩] =
      Except.error e :=
  ⟨((adjustment_rule_domain 0 0 9).2.2.2 (by omega)).1,
    ((adjustment_rule_domain 0 0 9).2.2.2 (by omega)).2 spOracle initial_ion_pos
      "MS" 1 0⟩

lemma minByKey_le (key : Pos → Nat) : ∀ (l : List Pos) (b : Pos),
    key (minByKey key b l) ≤ key b ∧ ∀ y ∈ l, key (minByKey key b l) ≤ key y := by
  intro l
  induction l with
  | nil => intro b; exact ⟨le_refl _, by simp⟩
  | cons y ys ih =>
      intro b
      unfold minByKey
      by_cases hyb : key y < key b
      · rw [if_pos hyb]
        obtain ⟨h1, h2⟩ := ih y
        refine ⟨le_trans h1 (le_of_lt hyb), ?_⟩
        intro z hz
        rcases List.mem_cons.mp hz with hz | hz
        · rw [hz]; exact h1
        · exact h2 z hz
      · rw [if_neg hyb]
        obtain ⟨h1, h2⟩ := ih b
        push_neg at hyb
        refine ⟨h1, ?_⟩
        intro z hz
        rcases List.mem_cons.mp hz with hz | hz
        · rw [hz]; exact le_trans h1 hyb
        · exact h2 z hz

lemma minByKey_first (key : Pos → Nat) : ∀ (l : List Pos) (b : Pos),
    ∃ i : Nat, (b :: l)[i]? = some (minByKey key b l) ∧
      ∀ (j : Nat) (z : Pos), j < i → (b :: l)[j]? = some z →
        key (minByKey key b l) < key z := by
  intro l
  induction l with
  | nil =>
      intro b
      refine ⟨0, by simp [minByKey], ?_⟩
      intro j z hj _
      omega
  | cons y ys ih =>
      intro b
      unfold minByKey
      by_cases hyb : key y < key b
      · rw [if_pos hyb]
        obtain ⟨i, hi, hpre⟩ := ih y
        refine ⟨i + 1, by simpa using hi, ?_⟩
        intro j z hj hz
        cases j with
        | zero =>
            simp only [List.getElem?_cons_zero] at hz
            cases hz
            exact lt_of_le_of_lt (minByKey_le key ys y).1 hyb
        | succ j' =>
            exact hpre j' z (by omega) (by simpa using hz)
      · rw [if_neg hyb]
        obtain ⟨i, hi, hpre⟩ := ih b
        push_neg at hyb
        cases i with
        | zero =>
            refine ⟨0, by simpa using hi, ?_⟩
            intro j z hj _
            omega
        | succ i' =>
            refine ⟨i' + 2, by simpa using hi, ?_⟩
            intro j z hj hz
            cases j with
            | zero =>
                simp only [List.getElem?_cons_zero] at hz
                cases hz
                exact hpre 0 b (by omega) (by simp)
            | succ j' =>
                cases j' with
                | zero =>
                    simp only [List.getElem?_cons_succ,
                      List.getElem?_cons_zero] at hz
                    cases hz
                    exact lt_of_lt_of_le (hpre 0 b (by omega) (by simp)) hyb
                | succ j'' =>
                    refine hpre (j'' + 1) z (by omega) ?_
                    simpa using hz

lemma select_int_eq (cur : List Pos) (q1 q2 : Nat) (c1 c2 a b : Pos)
    (h1 : listGet cur q1 = Except.ok c1) (h2 : listGet cur q2 = Except.ok c2)
    (ha : adjusted c1 q1 = Except.ok a) (hb : adjusted c2 q2 = Except.ok b) :
    select_int cur q1 q2 =
      if (a.1, b.2) ∈ INTERACTION_POINTS then Except.ok (a.1, b.2)
      else Except.ok (minByKey
        (fun n => shortest_path_length c1 n + shortest_path_length c2 n)
        (1, 1) [(1, 3), (3, 1), (3, 3), (1, 5), (3, 5)]) := by
  unfold select_int
  rw [h1]
  simp only [exceptOkBind]
  rw [h2]
  simp only [exceptOkBind]
  rw [ha]
  simp only [exceptOkBind]
  rw [hb]
  simp only [exceptOkBind]
  rfl

/-- C4 (amended): the candidate rendezvous is `(x of a's adjusted coordinate,
y of b's adjusted coordinate)` and is selected when it is a declared
interaction site; otherwise the selector falls back — without failing — to the
declared interaction site minimizing
`shortest_path_length(a_raw, site) + shortest_path_length(b_raw, site)`,
the summed distance from the operands' CURRENT, pre-adjustment positions
(not the adjusted ones, as the spec words it), ties broken by declaration
order. -/
theorem interaction_site_fallback (cur : List Pos) (q1 q2 : Nat) (c1 c2 a b : Pos)
    (h1 : listGet cur q1 = Except.ok c1) (h2 : listGet cur q2 = Except.ok c2)
    (ha : adjusted c1 q1 = Except.ok a) (hb : adjusted c2 q2 = Except.ok b) :
    ((a.1, b.2) ∈ INTERACTION_POINTS →
      select_int cur q1 q2 = Except.ok (a.1, b.2)) ∧
    ((a.1, b.2) ∉ INTERACTION_POINTS →
      ∃ s, select_int cur q1 q2 = Except.ok s ∧ s ∈ INTERACTION_POINTS ∧
        (∀ t ∈ INTERACTION_POINTS,
          shortest_path_length c1 s + shortest_path_length c2 s ≤
            shortest_path_length c1 t + shortest_path_length c2 t) ∧
        ∃ i : Nat, INTERACTION_POINTS[i]? = some s ∧
          ∀ (j : Nat) (t : Pos), j < i → INTERACTION_POINTS[j]? = some t →
            shortest_path_length c1 s + shortest_path_length c2 s <
              shortest_path_length c1 t + shortest_path_length c2 t) := by
  rw [select_int_eq cur q1 q2 c1 c2 a b h1 h2 ha hb]
  constructor
  · intro hmem
    rw [if_pos hmem]
  · intro hmem
    rw [if_neg hmem]
    set key : Pos → Nat :=
      fun n => shortest_path_length c1 n + shortest_path_length c2 n with hkey
    set s := minByKey key (1, 1) [(1, 3), (3, 1), (3, 3), (1, 5), (3, 5)] with hs
    have hips : INTERACTION_POINTS =
        (1, 1) :: [(1, 3), (3, 1), (3, 3), (1, 5), (3, 5)] := rfl
    obtain ⟨hle1, hle2⟩ := minByKey_le key [(1, 3), (3, 1), (3, 3), (1, 5), (3, 5)] (1, 1)
    obtain ⟨i, hi, hpre⟩ := minByKey_first key [(1, 3), (3, 1), (3, 3), (1, 5), (3, 5)] (1, 1)
    refine ⟨s, rfl, ?_, ?_, i, ?_, ?_⟩
    · rw [hips]
      exact List.getElem?_mem hi
    · intro t ht
      rw [hips] at ht
      rcases List.mem_cons.mp ht with ht | ht
      · rw [ht]; exact hle1
      · exact hle2 t ht
    · rw [hips]; exact hi
    · intro j t hj hjt
      rw [hips] at hjt
      exact hpre j t hj hjt

/-- The concrete position snapshot exhibiting the divergence of C4's fallback
rule: operand 0 sits at `(1, 3)` and operand 3 at `(3, 6)`. -/
def curCex : List Pos := [(1, 3), (0, 3), (0, 5), (3, 6), (3, 6), (4, 1), (4, 3), (4, 5)]

/-- C4 counterexample: with operands 0 and 3 at the `curCex` snapshot, the
candidate `(2, 5)` is not a declared interaction site; the source's fallback
(summed distance from the raw current positions) selects `(1, 3)`, while the
claim's rule (summed distance from the adjusted positions) selects `(3, 3)`. -/
theorem interaction_site_fallback_cex :
    select_int curCex 0 3 = Except.ok (1, 3) ∧
    select_int_claim curCex 0 3 = Except.ok (3, 3) ∧
    ((1, 3) : Pos) ≠ (3, 3) :=
  ⟨rfl, rfl, by decide⟩

/-- Witness for the amended C4 theorem, exercising the fallback on `curCex`. -/
theorem interaction_site_fallback_witness :
    ((2, 5) : Pos) ∉ INTERACTION_POINTS ∧
    ∃ s, select_int curCex 0 3 = Except.ok s ∧ s ∈ INTERACTION_POINTS ∧
      (∀ t ∈ INTERACTION_POINTS,
        shortest_path_length (1, 3) s + shortest_path_length (3, 6) s ≤
          shortest_path_length (1, 3) t + shortest_path_length (3, 6) t) ∧
      ∃ i : Nat, INTERACTION_POINTS[i]? = some s ∧
        ∀ (j : Nat) (t : Pos), j < i → INTERACTION_POINTS[j]? = some t →
          shortest_path_length (1, 3) s + shortest_path_length (3, 6) s <
            shortest_path_length (1, 3) t + shortest_path_length (3, 6) t :=
  ⟨by decide,
    (interaction_site_fallback curCex 0 3 (1, 3) (3, 6) (2, 3) (3, 5)
      rfl rfl rfl rfl).2 (by decide)⟩

/-- The two batch invariants of §3 of the spec, for one batch. -/
def GoodBatch (b : List Gate) : Prop :=
  (∀ g ∈ b, isTwoQubitGate g = true → b = [g]) ∧
  ((∀ g ∈ b, isTwoQubitGate g = false) → (singleWires b).Nodup)

/-- Invariant of the batching loop state. -/
def GoodState (st : BatchState) : Prop :=
  (∀ b ∈ st.1, GoodBatch b) ∧
  (∀ g ∈ st.2.1, isTwoQubitGate g = false) ∧
  (singleWires st.2.1).Nodup ∧
  (∀ q : Nat, q ∈ st.2.2 ↔ q ∈ singleWires st.2.1)

lemma singleWires_append (a b : List Gate) :
    singleWires (a ++ b) = singleWires a ++ singleWires b :=
  List.filterMap_append a b singleWireOf

lemma goodBatch_of_single {b : List Gate}
    (h1 : ∀ g ∈ b, isTwoQubitGate g = false) (h2 : (singleWires b).Nodup) :
    GoodBatch b := by
  refine ⟨?_, fun _ => h2⟩
  intro g hg htwo
  rw [h1 g hg] at htwo
  exact absurd htwo (by simp)

lemma goodBatch_pair {g : Gate} (h : isTwoQubitGate g = true) :
    GoodBatch [g] := by
  constructor
  · intro g' hg' _
    simp only [List.mem_singleton] at hg'
    rw [hg']
  · intro hall
    have := hall g (by simp)
    rw [h] at this
    exact absurd this (by simp)

lemma batchStep_good (st : BatchState) (g : Gate) (hst : GoodState st) :
    GoodState (batchStep st g) := by
  obtain ⟨batched, tmp, used⟩ := st
  obtain ⟨hb, htmp1, htmp2, hused⟩ := hst
  cases hw : g.wire with
  | single q =>
      have hsingle : isTwoQubitGate g = false := by simp [isTwoQubitGate, hw]
      have hwires : singleWires [g] = [q] := by simp [singleWires, singleWireOf, hw]
      simp only [batchStep, hw]
      by_cases hq : q ∈ used
      · rw [if_pos hq]
        refine ⟨?_, ?_, ?_, ?_⟩
        · intro b hbm
          rcases List.mem_append.mp hbm with h | h
          · exact hb b h
          · simp only [List.mem_singleton] at h
            rw [h]
            exact goodBatch_of_single htmp1 htmp2
        · intro g' hg'
          simp only [List.mem_singleton] at hg'
          rw [hg']
          exact hsingle
        · rw [hwires]; exact List.nodup_singleton q
        · intro q'
          rw [hwires]
      · rw [if_neg hq]
        refine ⟨hb, ?_, ?_, ?_⟩
        · intro g' hg'
          rcases List.mem_append.mp hg' with h | h
          · exact htmp1 g' h
          · simp only [List.mem_singleton] at h
            rw [h]
            exact hsingle
        · rw [singleWires_append, hwires]
          rw [List.nodup_append]
          refine ⟨htmp2, List.nodup_singleton q, ?_⟩
          intro a ha1 ha2
          simp only [List.mem_singleton] at ha2
          rw [ha2] at ha1
          exact hq ((hused q).mpr ha1)
        · intro q'
          rw [singleWires_append, hwires]
          simp only [List.mem_append, List.mem_singleton]
          rw [← hused q']
  | pair q1 q2 =>
      have htwo : isTwoQubitGate g = true := by simp [isTwoQubitGate, hw]
      have hwires : singleWires [g] = [] := by simp [singleWires, singleWireOf, hw]
      simp only [batchStep, hw]
      by_cases htmpE : tmp = []
      · rw [if_pos htmpE]
        refine ⟨?_, by simp, by simp [singleWires], ?_⟩
        · intro b hbm
          rcases List.mem_append.mp hbm with h | h
          · exact hb b h
          · simp only [List.mem_singleton] at h
            rw [h]
            exact goodBatch_pair htwo
        · intro q'
          have := hused q'
          rw [htmpE] at this
          simpa [singleWires] using this
      · rw [if_neg htmpE]
        refine ⟨?_, by simp, by simp [singleWires], by simp [singleWires]⟩
        intro b hbm
        rcases List.mem_append.mp hbm with h | h
        · exact hb b h
        · simp only [List.mem_cons, List.mem_singleton, List.not_mem_nil,
            or_false] at h
          rcases h with h | h
          · rw [h]
            exact goodBatch_of_single htmp1 htmp2
          · rw [h]
            exact goodBatch_pair htwo

lemma batch_fold_good (seq : List Gate) :
    ∀ st : BatchState, GoodState st → GoodState (seq.foldl batchStep st) := by
  induction seq with
  | nil => intro st h; exact h
  | cons g seq ih =>
      intro st h
      rw [List.foldl_cons]
      exact ih (batchStep st g) (batchStep_good st g h)

lemma batchFinish_good (batched : List (List Gate)) (tmp : List Gate)
    (hb : ∀ b ∈ batched, GoodBatch b)
    (htmp1 : ∀ g ∈ tmp, isTwoQubitGate g = false)
    (htmp2 : (singleWires tmp).Nodup) :
    ∀ b ∈ batchFinish batched tmp, GoodBatch b := by
  unfold batchFinish
  by_cases htmpE : tmp = []
  · rw [if_pos htmpE]; exact hb
  · rw [if_neg htmpE]
    split
    next last hlast =>
        by_cases hcond :
            (allSingle last && disjointWires (singleWires last) (singleWires tmp)) = true
        · rw [if_pos hcond]
          obtain ⟨hcond1, hcond2⟩ : allSingle last = true ∧
              disjointWires (singleWires last) (singleWires tmp) = true := by
            simpa only [Bool.and_eq_true] using hcond
          have hlastmem : last ∈ batched := by
            rw [← List.dropLast_append_getLast? last hlast]
            simp
          have hlastAll : ∀ g ∈ last, isTwoQubitGate g = false := by
            intro g hg
            have := List.all_eq_true.mp hcond1 g hg
            simpa using this
          have hlastNodup : (singleWires last).Nodup := (hb last hlastmem).2 hlastAll
          have hdisj : (singleWires last).Disjoint (singleWires tmp) := by
            intro a ha1 ha2
            have := List.all_eq_true.mp hcond2 a ha1
            simp only [Bool.not_eq_eq_eq_not, Bool.not_true] at this
            exact absurd ha2 (by simpa using this)
          intro b hbm
          rcases List.mem_append.mp hbm with h | h
          · exact hb b (List.mem_of_mem_dropLast h)
          · simp only [List.mem_singleton] at h
            rw [h]
            apply goodBatch_of_single
            · intro g hg
              rcases List.mem_append.mp hg with hg | hg
              · exact hlastAll g hg
              · exact htmp1 g hg
            · rw [singleWires_append, List.nodup_append]
              exact ⟨hlastNodup, htmp2, hdisj⟩
        · rw [if_neg hcond]
          intro b hbm
          rcases List.mem_append.mp hbm with h | h
          · exact hb b h
          · simp only [List.mem_singleton] at h
            rw [h]
            exact goodBatch_of_single htmp1 htmp2
    next hlast =>
        intro b hbm
        rcases List.mem_append.mp hbm with h | h
        · exact hb b h
        · simp only [List.mem_singleton] at h
          rw [h]
          exact goodBatch_of_single htmp1 htmp2

/-- C6: every batch produced by the gate batcher that contains a two-operand
operation is that operation's singleton, and in every other produced batch the
operand indices of the single-operand operations are pairwise distinct. -/
theorem batch_invariant (seq : List Gate) (b : List Gate)
    (hb : b ∈ batch_circuit seq) :
    (∀ g ∈ b, isTwoQubitGate g = true → b = [g]) ∧
    ((∀ g ∈ b, isTwoQubitGate g = false) → (singleWires b).Nodup) := by
  have hst : GoodState (seq.foldl batchStep ([], [], [])) := by
    apply batch_fold_good
    refine ⟨by simp, by simp, ?_, ?_⟩
    · simp [singleWires]
    · intro q; simp [singleWires]
  obtain ⟨h1, h2, h3, _⟩ := hst
  simp only [batch_circuit] at hb
  exact batchFinish_good _ _ h1 h2 h3 b hb

/-- Witness for C6 at a concrete input. -/
theorem batch_invariant_witness :
    (∀ g ∈ [(⟨"RX", 1, Wire.single 0⟩ : Gate), ⟨"RY", 2, Wire.single 1⟩],
      isTwoQubitGate g = true →
        [(⟨"RX", 1, Wire.single 0⟩ : Gate), ⟨"RY", 2, Wire.single 1⟩] = [g]) ∧
    ((∀ g ∈ [(⟨"RX", 1, Wire.single 0⟩ : Gate), ⟨"RY", 2, Wire.single 1⟩],
      isTwoQubitGate g = false) →
        (singleWires [(⟨"RX", 1, Wire.single 0⟩ : Gate),
          ⟨"RY", 2, Wire.single 1⟩]).Nodup) :=
  batch_invariant [⟨"RX", 1, Wire.single 0⟩, ⟨"RY", 2, Wire.single 1⟩]
    [⟨"RX", 1, Wire.single 0⟩, ⟨"RY", 2, Wire.single 1⟩] (by decide)

lemma batch_fold_flatten (seq : List Gate) : ∀ st : BatchState,
    ((seq.foldl batchStep st).1).flatten ++ (seq.foldl batchStep st).2.1 =
      st.1.flatten ++ st.2.1 ++ seq := by
  induction seq with
  | nil => intro st; simp
  | cons g seq ih =>
      intro st
      rw [List.foldl_cons, ih (batchStep st g)]
      obtain ⟨batched, tmp, used⟩ := st
      cases hw : g.wire with
      | single q =>
          simp only [batchStep, hw]
          by_cases hq : q ∈ used
          · rw [if_pos hq]
            simp [List.flatten_append, List.append_assoc]
          · rw [if_neg hq]
            simp [List.append_assoc]
      | pair q1 q2 =>
          simp only [batchStep, hw]
          by_cases htmpE : tmp = []
          · rw [if_pos htmpE, htmpE]
            simp [List.flatten_append, List.append_assoc]
          · rw [if_neg htmpE]
            simp [List.flatten_append, List.append_assoc]

lemma batchFinish_flatten (batched : List (List Gate)) (tmp : List Gate) :
    (batchFinish batched tmp).flatten = batched.flatten ++ tmp := by
  unfold batchFinish
  by_cases htmpE : tmp = []
  · rw [if_pos htmpE, htmpE]
    simp
  · rw [if_neg htmpE]
    split
    next last hlast =>
        by_cases hcond :
            (allSingle last && disjointWires (singleWires last) (singleWires tmp)) = true
        · rw [if_pos hcond]
          conv_rhs => rw [← List.dropLast_append_getLast? last hlast]
          simp [List.flatten_append, List.append_assoc]
        · rw [if_neg hcond]
          simp [List.flatten_append]
    next hlast =>
        simp [List.flatten_append]

/-- C7: the trailing open batch is merged into the previous batch exactly when
that previous batch exists, contains only single-operand operations and has an
operand set disjoint from the open batch's; otherwise the open batch is pushed
as its own final batch.  In all cases the concatenation of the produced
batches equals the input operation sequence in order. -/
theorem trailing_batch_compaction (seq : List Gate) :
    (batch_circuit seq).flatten = seq ∧
    ∀ (batched : List (List Gate)) (tmp : List Gate) (used : List Nat),
      seq.foldl batchStep ([], [], []) = (batched, tmp, used) → tmp ≠ [] →
      ((∀ last, batched.getLast? = some last →
          allSingle last = true →
          disjointWires (singleWires last) (singleWires tmp) = true →
          batch_circuit seq = batched.dropLast ++ [last ++ tmp]) ∧
        ((∀ last, batched.getLast? = some last →
            ¬(allSingle last = true ∧
              disjointWires (singleWires last) (singleWires tmp) = true)) →
          batch_circuit seq = batched ++ [tmp])) := by
  constructor
  · simp only [batch_circuit]
    rw [batchFinish_flatten]
    have := batch_fold_flatten seq ([], [], [])
    simpa using this
  · intro batched tmp used hfold htmp
    have hbc : batch_circuit seq = batchFinish batched tmp := by
      simp only [batch_circuit, hfold]
    constructor
    · intro last hlast hall hdisj
      rw [hbc]
      unfold batchFinish
      rw [if_neg htmp]
      split
      next last' hlast' =>
          rw [hlast'] at hlast
          cases hlast
          rw [if_pos (by rw [hall, hdisj]; rfl)]
      next hnone =>
          rw [hnone] at hlast
          exact absurd hlast (by simp)
    · intro hno
      rw [hbc]
      unfold batchFinish
      rw [if_neg htmp]
      split
      next last' hlast' =>
          rw [if_neg ?_]
          intro hcontra
          refine hno last' hlast' ?_
          simpa only [Bool.and_eq_true] using hcontra
      next hnone => rfl

/-- Witness for C7 at a concrete input where a batch remains open at end of
input and is pushed separately (the previous batch shares operand 0). -/
theorem trailing_batch_compaction_witness :
    (batch_circuit [⟨"RX", 1, Wire.single 0⟩, ⟨"RX", 2, Wire.single 0⟩]).flatten =
      [⟨"RX", 1, Wire.single 0⟩, ⟨"RX", 2, Wire.single 0⟩] ∧
    batch_circuit [⟨"RX", 1, Wire.single 0⟩, ⟨"RX", 2, Wire.single 0⟩] =
      [[⟨"RX", 1, Wire.single 0⟩]] ++ [[⟨"RX", 2, Wire.single 0⟩]] :=
  ⟨(trailing_batch_compaction
      [⟨"RX", 1, Wire.single 0⟩, ⟨"RX", 2, Wire.single 0⟩]).1,
    ((trailing_batch_compaction
        [⟨"RX", 1, Wire.single 0⟩, ⟨"RX", 2, Wire.single 0⟩]).2
      [[⟨"RX", 1, Wire.single 0⟩]] [⟨"RX", 2, Wire.single 0⟩] [0]
      (by decide) (by decide)).2 (by decide)⟩

lemma getD_zero_eq_headD (gs : List (List Gate)) : gs.getD 0 [] = gs.headD [] := by
  cases gs <;> rfl

lemma getD_tail (gs : List (List Gate)) (j : Nat) :
    gs.tail.getD j [] = gs.getD (j + 1) [] := by
  cases gs <;> rfl

lemma getD_of_getElem? {l : List α} {n : Nat} {x : α} (d : α) (h : l[n]? = some x) :
    l.getD n d = x := by
  rw [List.getD_eq_getElem?_getD, h]
  rfl

lemma getElem?_eq_getD {l : List α} {n : Nat} (d : α) (h : n < l.length) :
    l[n]? = some (l.getD n d) := by
  rw [List.getD_eq_getElem?_getD]
  rcases hx : l[n]? with _ | x
  · rw [List.getElem?_eq_none_iff] at hx
    omega
  · rfl

/-- One stationary, gate-free step of one operand's column (`ps` are the
positions from timestep 1 on, `prev` the position at timestep 0; `gs` is
aligned with `ps`). -/
def stepOK (ion : Nat) (prev : Pos) (ps : List Pos) (gs : List (List Gate))
    (j : Nat) : Prop :=
  ps[j]? = (if j = 0 then some prev else ps[j - 1]?) ∧
  has_gate (gs.getD j []) ion = false

lemma stepOK_shift {ion : Nat} {prev curr : Pos} {ps : List Pos}
    {gs : List (List Gate)} {j : Nat} (h : stepOK ion curr ps gs.tail j) :
    stepOK ion prev (curr :: ps) gs (j + 1) := by
  obtain ⟨h1, h2⟩ := h
  constructor
  · cases j with
    | zero => simpa using h1
    | succ j' => simpa using h1
  · rw [← getD_tail]
    exact h2

lemma annotate_go_length (th ion : Nat) : ∀ (ps : List Pos)
    (gs : List (List Gate)) (prev : Pos) (run : Nat),
    (annotate_go th ion prev run ps gs).length = ps.length := by
  intro ps
  induction ps with
  | nil => intro gs prev run; rfl
  | cons curr ps ih =>
      intro gs prev run
      simp only [annotate_go]
      split
      · simp [ih]
      · split
        · simp [ih]
        · simp [ih]

lemma annotate_go_entry (th ion : Nat) : ∀ (ps : List Pos)
    (gs : List (List Gate)) (prev : Pos) (run k : Nat) (nd : Node),
    (annotate_go th ion prev run ps gs)[k]? = some nd →
    ∃ p, ps[k]? = some p ∧ (nd = Node.site p ∨ nd = Node.idleSite p) := by
  intro ps
  induction ps with
  | nil => intro gs prev run k nd h; simp [annotate_go] at h
  | cons curr ps ih =>
      intro gs prev run k nd h
      simp only [annotate_go] at h
      split at h
      · cases k with
        | zero =>
            simp only [List.getElem?_cons_zero] at h
            exact ⟨curr, by simp, Or.inl (Option.some.inj h).symm⟩
        | succ k' =>
            rw [List.getElem?_cons_succ] at h
            obtain ⟨p, hp, hnd⟩ := ih gs.tail curr 0 k' nd h
            exact ⟨p, by simpa using hp, hnd⟩
      · split at h
        · cases k with
          | zero =>
              simp only [List.getElem?_cons_zero] at h
              exact ⟨curr, by simp, Or.inr (Option.some.inj h).symm⟩
          | succ k' =>
              rw [List.getElem?_cons_succ] at h
              obtain ⟨p, hp, hnd⟩ := ih gs.tail curr (run + 1) k' nd h
              exact ⟨p, by simpa using hp, hnd⟩
        · cases k with
          | zero =>
              simp only [List.getElem?_cons_zero] at h
              exact ⟨curr, by simp, Or.inl (Option.some.inj h).symm⟩
          | succ k' =>
              rw [List.getElem?_cons_succ] at h
              obtain ⟨p, hp, hnd⟩ := ih gs.tail curr (run + 1) k' nd h
              exact ⟨p, by simpa using hp, hnd⟩

lemma annotate_go_idle (th ion : Nat) : ∀ (ps : List Pos)
    (gs : List (List Gate)) (prev : Pos) (run k : Nat) (p : Pos),
    (annotate_go th ion prev run ps gs)[k]? = some (Node.idleSite p) →
    ps[k]? = some p ∧ th ≤ run + k + 1 ∧
    ∀ j, j ≤ k → k < j + th → stepOK ion prev ps gs j := by
  intro ps
  induction ps with
  | nil => intro gs prev run k p h; simp [annotate_go] at h
  | cons curr ps ih =>
      intro gs prev run k p h
      simp only [annotate_go] at h
      by_cases hreset : curr ≠ prev ∨ has_gate (gs.headD []) ion = true
      · rw [if_pos hreset] at h
        cases k with
        | zero => simp at h
        | succ k' =>
            rw [List.getElem?_cons_succ] at h
            obtain ⟨hp, hth, hwin⟩ := ih gs.tail curr 0 k' p h
            refine ⟨by simpa using hp, by omega, ?_⟩
            intro j hj hjth
            cases j with
            | zero => exfalso; omega
            | succ j' => exact stepOK_shift (hwin j' (by omega) (by omega))
      · rw [if_neg hreset] at h
        push_neg at hreset
        obtain ⟨hcurr, hgate⟩ := hreset
        have hgate' : has_gate (gs.headD []) ion = false := by
          simpa using hgate
        have hstep0 : stepOK ion prev (curr :: ps) gs 0 := by
          refine ⟨by simp [hcurr], ?_⟩
          rw [getD_zero_eq_headD]
          exact hgate'
        by_cases hth : th ≤ run + 1
        · rw [if_pos hth] at h
          cases k with
          | zero =>
              simp only [List.getElem?_cons_zero] at h
              have hp : Node.idleSite curr = Node.idleSite p := Option.some.inj h
              cases hp
              refine ⟨by simp, by omega, ?_⟩
              intro j hj hjth
              have hj0 : j = 0 := by omega
              rw [hj0]
              exact hstep0
          | succ k' =>
              rw [List.getElem?_cons_succ] at h
              obtain ⟨hp, hth2, hwin⟩ := ih gs.tail curr (run + 1) k' p h
              refine ⟨by simpa using hp, by omega, ?_⟩
              intro j hj hjth
              cases j with
              | zero => exact hstep0
              | succ j' => exact stepOK_shift (hwin j' (by omega) (by omega))
        · rw [if_neg hth] at h
          cases k with
          | zero => simp at h
          | succ k' =>
              rw [List.getElem?_cons_succ] at h
              obtain ⟨hp, hth2, hwin⟩ := ih gs.tail curr (run + 1) k' p h
              refine ⟨by simpa using hp, by omega, ?_⟩
              intro j hj hjth
              cases j with
              | zero => exact hstep0
              | succ j' => exact stepOK_shift (hwin j' (by omega) (by omega))

lemma annotate_go_reset (th ion : Nat) : ∀ (ps : List Pos)
    (gs : List (List Gate)) (prev : Pos) (run k : Nat) (curr : Pos),
    ps[k]? = some curr →
    (ps[k]? ≠ (if k = 0 then some prev else ps[k - 1]?) ∨
      has_gate (gs.getD k []) ion = true) →
    (annotate_go th ion prev run ps gs)[k]? = some (Node.site curr) := by
  intro ps
  induction ps with
  | nil => intro gs prev run k curr hcurr _; simp at hcurr
  | cons c ps ih =>
      intro gs prev run k curr hcurr hreset
      cases k with
      | zero =>
          simp only [List.getElem?_cons_zero] at hcurr
          have hc : c = curr := Option.some.inj hcurr
          have hcond : c ≠ prev ∨ has_gate (gs.headD []) ion = true := by
            rcases hreset with h | h
            · left
              intro he
              apply h
              simp [he]
            · right
              rwa [getD_zero_eq_headD] at h
          simp only [annotate_go]
          rw [if_pos hcond]
          rw [List.getElem?_cons_zero, hc]
      | succ k' =>
          rw [List.getElem?_cons_succ] at hcurr
          have hreset' : ps[k']? ≠ (if k' = 0 then some c else ps[k' - 1]?) ∨
              has_gate (gs.tail.getD k' []) ion = true := by
            rcases hreset with h | h
            · left
              cases k' with
              | zero => simpa using h
              | succ k'' => simpa using h
            · right
              rw [getD_tail]
              exact h
          simp only [annotate_go]
          split
          · rw [List.getElem?_cons_succ]
            exact ih gs.tail c 0 k' curr hcurr hreset'
          · split
            · rw [List.getElem?_cons_succ]
              exact ih gs.tail c (run + 1) k' curr hcurr hreset'
            · rw [List.getElem?_cons_succ]
              exact ih gs.tail c (run + 1) k' curr hcurr hreset'

lemma gateTargets_eq_references {g : Gate} (hwf : gateWellFormed g = true)
    (ion : Nat) : gateTargets ion g = references ion g := by
  unfold gateTargets references gateWellFormed at *
  cases hwire : g.wire with
  | single q =>
      rw [hwire] at hwf
      have hwf' : (g.kind == "RX" || g.kind == "RY") = true := hwf
      simp [hwire]
      intro _
      simpa using hwf'
  | pair a b =>
      rw [hwire] at hwf
      have hwf' : (g.kind == "MS") = true := hwf
      simp [hwire]
      intro _
      simpa using hwf'

lemma has_gate_eq_any_references {b : List Gate}
    (hw : ∀ g ∈ b, gateWellFormed g = true) (ion : Nat) :
    has_gate b ion = b.any (references ion) := by
  unfold has_gate
  induction b with
  | nil => rfl
  | cons g b ih =>
      simp only [List.any_cons]
      rw [ih (fun g' hg' => hw g' (by simp [hg'])),
        gateTargets_eq_references (hw g (by simp)) ion]

lemma annotate_col_length (th ion : Nat) (pcol : List Pos)
    (gs : List (List Gate)) :
    (annotate_col th ion pcol gs).length = pcol.length := by
  cases pcol with
  | nil => rfl
  | cons p0 ps => simp [annotate_col, annotate_go_length]

lemma colAt_length (P : List (List Pos)) (ion : Nat) :
    (colAt P ion).length = P.length := by
  simp [colAt]

lemma idle_annotate_entry (th : Nat) (P : List (List Pos)) (G : List (List Gate))
    (t ion : Nat) (ht : t < P.length) (hion : ion < (P.headD []).length) :
    entryAt (idle_annotate th P G) t ion =
      (annotate_col th ion (colAt P ion) G).getD t (Node.site (0, 0)) := by
  unfold idle_annotate entryAt colAt
  have h1 : ((List.range P.length).map fun t =>
      (List.range (P.headD []).length).map fun ion =>
        (annotate_col th ion (P.map fun row => row.getD ion (0, 0)) G).getD t
          (Node.site (0, 0)))[t]? =
      some ((List.range (P.headD []).length).map fun ion =>
        (annotate_col th ion (P.map fun row => row.getD ion (0, 0)) G).getD t
          (Node.site (0, 0))) := by
    rw [List.getElem?_map, List.getElem?_range ht]
    rfl
  rw [getD_of_getElem? [] h1]
  have h2 : ((List.range (P.headD []).length).map fun ion =>
      (annotate_col th ion (P.map fun row => row.getD ion (0, 0)) G).getD t
        (Node.site (0, 0)))[ion]? =
      some ((annotate_col th ion (P.map fun row => row.getD ion (0, 0)) G).getD t
        (Node.site (0, 0))) := by
    rw [List.getElem?_map, List.getElem?_range hion]
    rfl
  rw [getD_of_getElem? (Node.site (0, 0)) h2]

/-- C5: soundness of the idle annotator.  For a schedule whose gates all have
the shapes the compiler emits (`RX`/`RY` on a single wire, `MS` on a pair —
the `use_Z = False` setting of `compiler_v01.main`), and for every operand
`ion` and timestep `t`: the idle tag appears at `t` only after at least
`threshold` consecutive timesteps, ending at `t`, in which the operand was
stationary and referenced by no gate; at a timestep where the operand moves or
any batch entry references it, the entry is the plain coordinate; tagging
never changes a coordinate; and the annotator preserves the timeline length. -/
theorem idle_annotation_sound (th : Nat) (P : List (List Pos))
    (G : List (List Gate)) (ion : Nat)
    (hion : ion < (P.headD []).length)
    (hwk : ∀ b ∈ G, ∀ g ∈ b, gateWellFormed g = true) :
    (idle_annotate th P G).length = P.length ∧
    (∀ t p, t < P.length →
      entryAt (idle_annotate th P G) t ion = Node.idleSite p →
      (colAt P ion)[t]? = some p ∧ th ≤ t ∧
      ∀ j, 1 ≤ j → j ≤ t → t < j + th →
        (colAt P ion)[j]? = (colAt P ion)[j - 1]? ∧
        ∀ g ∈ G.getD j [], references ion g = false) ∧
    (∀ t curr, 1 ≤ t → t < P.length → (colAt P ion)[t]? = some curr →
      ((colAt P ion)[t]? ≠ (colAt P ion)[t - 1]? ∨
        ∃ g ∈ G.getD t [], references ion g = true) →
      entryAt (idle_annotate th P G) t ion = Node.site curr) ∧
    (∀ t, t < P.length → ∃ p, (colAt P ion)[t]? = some p ∧
      (entryAt (idle_annotate th P G) t ion = Node.site p ∨
        entryAt (idle_annotate th P G) t ion = Node.idleSite p)) := by
  have hbatch : ∀ j, ∀ g ∈ G.getD j [], gateWellFormed g = true := by
    intro j g hg
    rcases hj : G[j]? with _ | b
    · rw [List.getD_eq_getElem?_getD, hj] at hg
      simp at hg
    · rw [List.getD_eq_getElem?_getD, hj] at hg
      exact hwk b (List.getElem?_mem hj) g hg
  refine ⟨by simp [idle_annotate], ?_, ?_, ?_⟩
  · -- idle tag only after a full stationary, gate-free window
    intro t p ht hidle
    rw [idle_annotate_entry th P G t ion ht hion] at hidle
    have htlen : t < (annotate_col th ion (colAt P ion) G).length := by
      rw [annotate_col_length, colAt_length]
      exact ht
    have hsome : (annotate_col th ion (colAt P ion) G)[t]? =
        some (Node.idleSite p) := by
      rw [getElem?_eq_getD (Node.site (0, 0)) htlen, hidle]
    cases hpc : colAt P ion with
    | nil =>
        rw [hpc] at hsome
        simp [annotate_col] at hsome
    | cons p0 ps =>
        rw [hpc] at hsome
        simp only [annotate_col] at hsome
        cases t with
        | zero =>
            rw [List.getElem?_cons_zero] at hsome
            exact absurd (Option.some.inj hsome) (by simp)
        | succ t' =>
            rw [List.getElem?_cons_succ] at hsome
            obtain ⟨hp, hth, hwin⟩ :=
              annotate_go_idle th ion ps G.tail p0 0 t' p hsome
            refine ⟨by simpa using hp, by omega, ?_⟩
            intro j h1j hjt hjth
            obtain ⟨j', rfl⟩ : ∃ j', j = j' + 1 := ⟨j - 1, by omega⟩
            obtain ⟨hstep1, hstep2⟩ := hwin j' (by omega) (by omega)
            constructor
            · by_cases hj0 : j' = 0
              · subst hj0
                rw [if_pos rfl] at hstep1
                simpa using hstep1
              · rw [if_neg hj0] at hstep1
                obtain ⟨j'', rfl⟩ : ∃ j'', j' = j'' + 1 := ⟨j' - 1, by omega⟩
                simpa using hstep1
            · intro g hg
              rw [getD_tail] at hstep2
              rw [has_gate_eq_any_references (hbatch (j' + 1)) ion] at hstep2
              by_contra href
              have : (G.getD (j' + 1) []).any (references ion) = true :=
                List.any_eq_true.mpr ⟨g, hg, by simpa using href⟩
              rw [this] at hstep2
              exact absurd hstep2 (by simp)
  · -- movement or gate activity forces the plain coordinate
    intro t curr h1t ht hcurr hmoved
    rw [idle_annotate_entry th P G t ion ht hion]
    apply getD_of_getElem?
    cases hpc : colAt P ion with
    | nil =>
        rw [hpc] at hcurr
        simp at hcurr
    | cons p0 ps =>
        obtain ⟨t', rfl⟩ : ∃ t', t = t' + 1 := ⟨t - 1, by omega⟩
        rw [hpc] at hcurr hmoved
        simp only [annotate_col]
        rw [List.getElem?_cons_succ]
        apply annotate_go_reset
        · simpa using hcurr
        · rcases hmoved with h | h
          · left
            by_cases ht0 : t' = 0
            · subst ht0
              rw [if_pos rfl]
              simpa using h
            · rw [if_neg ht0]
              obtain ⟨t'', rfl⟩ : ∃ t'', t' = t'' + 1 := ⟨t' - 1, by omega⟩
              simpa using h
          · right
            rw [getD_tail]
            obtain ⟨g, hg, href⟩ := h
            rw [has_gate_eq_any_references (hbatch (t' + 1)) ion]
            exact List.any_eq_true.mpr ⟨g, hg, by simpa using href⟩
  · -- coordinates are preserved, tagged or not
    intro t ht
    have htlen : t < (annotate_col th ion (colAt P ion) G).length := by
      rw [annotate_col_length, colAt_length]
      exact ht
    rw [idle_annotate_entry th P G t ion ht hion]
    cases hpc : colAt P ion with
    | nil =>
        exfalso
        have := colAt_length P ion
        rw [hpc] at this
        simp at this
        omega
    | cons p0 ps =>
        rw [hpc] at htlen
        cases t with
        | zero =>
            refine ⟨p0, by simp, Or.inl ?_⟩
            simp [annotate_col]
        | succ t' =>
            have ht' : t' < (annotate_go th ion p0 0 ps G.tail).length := by
              simpa [annotate_col, annotate_go_length] using htlen
            have hsome := getElem?_eq_getD (Node.site (0, 0)) ht'
            obtain ⟨p, hp, hnd⟩ :=
              annotate_go_entry th ion ps G.tail p0 0 t'
                ((annotate_go th ion p0 0 ps G.tail).getD t' (Node.site (0, 0)))
                hsome
            refine ⟨p, by simpa using hp, ?_⟩
            have hcol : (annotate_col th ion (p0 :: ps) G).getD (t' + 1)
                (Node.site (0, 0)) =
                (annotate_go th ion p0 0 ps G.tail).getD t' (Node.site (0, 0)) := by
              apply getD_of_getElem?
              simp only [annotate_col]
              rw [List.getElem?_cons_succ]
              exact hsome
            rw [hcol]
            rcases hnd with hnd | hnd
            · exact Or.inl hnd
            · exact Or.inr hnd

/-- A small stationary timeline used to instantiate the annotator theorems. -/
def idleP : List (List Pos) := List.replicate 4 [(2, 2)]

/-- An all-empty schedule matching `idleP`. -/
def idleG : List (List Gate) := [[], [], [], []]

/-- Witness for C5 at a concrete input (threshold 2, a stationary operand). -/
theorem idle_annotation_sound_witness :
    (idle_annotate 2 idleP idleG).length = idleP.length ∧
    (∀ t p, t < idleP.length →
      entryAt (idle_annotate 2 idleP idleG) t 0 = Node.idleSite p →
      (colAt idleP 0)[t]? = some p ∧ 2 ≤ t ∧
      ∀ j, 1 ≤ j → j ≤ t → t < j + 2 →
        (colAt idleP 0)[j]? = (colAt idleP 0)[j - 1]? ∧
        ∀ g ∈ idleG.getD j [], references 0 g = false) ∧
    (∀ t curr, 1 ≤ t → t < idleP.length → (colAt idleP 0)[t]? = some curr →
      ((colAt idleP 0)[t]? ≠ (colAt idleP 0)[t - 1]? ∨
        ∃ g ∈ idleG.getD t [], references 0 g = true) →
      entryAt (idle_annotate 2 idleP idleG) t 0 = Node.site curr) ∧
    (∀ t, t < idleP.length → ∃ p, (colAt idleP 0)[t]? = some p ∧
      (entryAt (idle_annotate 2 idleP idleG) t 0 = Node.site p ∨
        entryAt (idle_annotate 2 idleP idleG) t 0 = Node.idleSite p)) :=
  idle_annotation_sound 2 idleP idleG 0 (by decide) (by decide)

/-- A stationary 8-step timeline for one operand. -/
def rzP : List (List Pos) := List.replicate 8 [(2, 2)]

/-- A schedule that applies an `"RZ"` rotation to operand 0 at timestep 6. -/
def rzG : List (List Gate) :=
  [[], [], [], [], [], [], [⟨"RZ", 1, Wire.single 0⟩], []]

/-- C10: the idle annotator's gate test matches only `"RX"`/`"RY"`
single-operand gates and `"MS"` two-operand gates; a batch whose gates all
have other kinds (for instance `"RZ"`, which the extractor emits when `use_Z`
is true) never counts as targeting the operand, so a stationary operand's run
is not reset and it can carry the idle tag at the very timestep such a gate
applies to it — as the concrete `rzP`/`rzG` timeline shows at `t = 6`
(threshold 6). -/
theorem idle_tag_ignores_other_kinds :
    (∀ (gs : List Gate) (ion : Nat),
      (∀ g ∈ gs, g.kind ≠ "RX" ∧ g.kind ≠ "RY" ∧ g.kind ≠ "MS") →
      has_gate gs ion = false) ∧
    entryAt (idle_annotate 6 rzP rzG) 6 0 = Node.idleSite (2, 2) ∧
    (∃ g ∈ rzG.getD 6 [], g.kind = "RZ" ∧ references 0 g = true) := by
  refine ⟨?_, by decide, by decide⟩
  intro gs ion h
  unfold has_gate
  rw [List.any_eq_false]
  intro g hg
  obtain ⟨h1, h2, h3⟩ := h g hg
  unfold gateTargets
  cases hw : g.wire <;> simp [h1, h2, h3]

/-- Witness for C10's universally quantified part: an `"RZ"` gate on the very
operand does not count as a gate for the idle run. -/
theorem idle_tag_ignores_other_kinds_witness :
    has_gate [⟨"RZ", 1, Wire.single 0⟩] 0 = false :=
  idle_tag_ignores_other_kinds.1 [⟨"RZ", 1, Wire.single 0⟩] 0 (by decide)
